import Mathlib

/-! Verification of the gcmodule thread-safe cycle collector against its
specification.

The development shallowly embeds the two source files:

* `src/sync/collect.rs` — the `ThreadedObjectSpace` registry: an intrusive
  circular doubly linked list of type-erased `Header` nodes guarded by a
  structural mutex, plus a reader/writer collector-exclusion lock, and the
  `collect_cycles` entry point.
* `src/trace_impls.rs` — the `Trace` capability implementations for standard
  types: the static `is_type_tracked` predicate and the `trace` visitors.

Pointers become naturals (`0` is the null pointer), memory becomes a total
function from addresses to `Header` records, and each Rust operation becomes a
Lean function performing the same field updates in the same order.  The parts
of the crate that the two files call into but that are not part of the
excerpt (the generic `collect_list` trial-deletion pass and `visit_list`) are
modelled from the specification, and are marked as such.

The file is organised as definitions first (Parts 1-5), then the lemmas and
the claim theorems. -/

/-! Part 1: the `is_type_tracked` predicate (`src/trace_impls.rs`).

`Ty` is the grammar of the types that `src/trace_impls.rs` gives a `Trace`
implementation: the acyclic leaves declared via `trace_acyclic!`, the tuple
implementations from `trace_fields!`, and the container / wrapper
implementations written out by hand.  `is_type_tracked` computes the static
predicate exactly as each `impl` in the source does. -/

inductive Ty where
  | bool | char | f32 | f64 | i8 | i16 | i32 | i64 | isize
  | u8 | u16 | u32 | u64 | usize
  | unit | string | staticStr
  | tuple1 (a : Ty)
  | tuple2 (a b : Ty)
  | tuple3 (a b c : Ty)
  | tuple4 (a b c d : Ty)
  | tuple5 (a b c d e : Ty)
  | tuple6 (a b c d e f : Ty)
  | tuple7 (a b c d e f g : Ty)
  | cow (owned : Ty)
  | box (t : Ty)
  | boxDynTrace
  | boxDynTraceSend
  | boxDynTraceSendSync
  | cell (t : Ty)
  | refCell (t : Ty)
  | onceCell (t : Ty)
  | btreeMap (k v : Ty)
  | hashMap (k v : Ty)
  | linkedList (t : Ty)
  | vecDeque (t : Ty)
  | vec (t : Ty)
  | fnPtr
  | cString | nulError | osString
  | ipAddr
  | pathBuf
  | processHandle
  | option (t : Ty)
  | result (t u : Ty)
  | rc (t : Ty)
  | rcWeak (t : Ty)
  | arc (t : Ty)
  | mutex (t : Ty)
  | rwLock (t : Ty)
  | joinHandle (t : Ty)
  | thread
  | phantomData (t : Ty)

/-- The static predicate `is_type_tracked` from `src/trace_impls.rs`.  Each
equation mirrors one `impl Trace for ...` in the file: `trace_acyclic!` leaves
return `false`; `trace_fields!` tuples return `true` as soon as one field type
is tracked and `false` otherwise (logical OR); single-parameter containers
delegate to the parameter; two-parameter maps and `Result` take the OR of both
parameters; `Box<dyn Trace>` (with any marker combination) returns `true`;
`Rc`, `rc::Weak`, `Arc`, `JoinHandle`, `PhantomData` and function pointers are
declared acyclic for every parameter. -/
def is_type_tracked : Ty → Bool
  | .bool | .char | .f32 | .f64 | .i8 | .i16 | .i32 | .i64 | .isize => false
  | .u8 | .u16 | .u32 | .u64 | .usize => false
  | .unit | .string | .staticStr => false
  | .tuple1 a => is_type_tracked a
  | .tuple2 a b => is_type_tracked a || is_type_tracked b
  | .tuple3 a b c => is_type_tracked a || is_type_tracked b || is_type_tracked c
  | .tuple4 a b c d =>
      is_type_tracked a || is_type_tracked b || is_type_tracked c ||
      is_type_tracked d
  | .tuple5 a b c d e =>
      is_type_tracked a || is_type_tracked b || is_type_tracked c ||
      is_type_tracked d || is_type_tracked e
  | .tuple6 a b c d e f =>
      is_type_tracked a || is_type_tracked b || is_type_tracked c ||
      is_type_tracked d || is_type_tracked e || is_type_tracked f
  | .tuple7 a b c d e f g =>
      is_type_tracked a || is_type_tracked b || is_type_tracked c ||
      is_type_tracked d || is_type_tracked e || is_type_tracked f ||
      is_type_tracked g
  | .cow owned => is_type_tracked owned
  | .box t => is_type_tracked t
  | .boxDynTrace => true
  | .boxDynTraceSend => true
  | .boxDynTraceSendSync => true
  | .cell t => is_type_tracked t
  | .refCell t => is_type_tracked t
  | .onceCell t => is_type_tracked t
  | .btreeMap k v => is_type_tracked k || is_type_tracked v
  | .hashMap k v => is_type_tracked k || is_type_tracked v
  | .linkedList t => is_type_tracked t
  | .vecDeque t => is_type_tracked t
  | .vec t => is_type_tracked t
  | .fnPtr => false
  | .cString | .nulError | .osString => false
  | .ipAddr => false
  | .pathBuf => false
  | .processHandle => false
  | .option t => is_type_tracked t
  | .result t u => is_type_tracked t || is_type_tracked u
  | .rc _ => false
  | .rcWeak _ => false
  | .arc _ => false
  | .mutex t => is_type_tracked t
  | .rwLock t => is_type_tracked t
  | .joinHandle _ => false
  | .thread => false
  | .phantomData _ => false

/-! Part 2: the registry memory model (`src/sync/collect.rs`).

A `Header` holds the four fields of the Rust struct, with raw pointers as
naturals (`0` is null), the vtable pointer as an opaque natural, and the
shared `Arc<Mutex<()>>` handle identified by a numeric lock id.  A `Mem` is
the heap: a total map from addresses to headers.  Every registry operation is
translated statement by statement, performing its `Cell::set` writes in source
order. -/

structure Header where
  next : Nat
  prev : Nat
  ccdyn_vptr : Nat
  linked_list_lock : Nat
deriving DecidableEq

def Mem : Type := Nat → Header

/-- Heap update at one address. -/
def Mem.write (m : Mem) (a : Nat) (h : Header) : Mem :=
  fun x => if x = a then h else m x

/-- The write `(*a).next.set(v)`. -/
def Mem.setNext (m : Mem) (a v : Nat) : Mem :=
  m.write a { m a with next := v }

/-- The write `(*a).prev.set(v)`. -/
def Mem.setPrev (m : Mem) (a v : Nat) : Mem :=
  m.write a { m a with prev := v }

/-- The write `(*a).ccdyn_vptr = v`. -/
def Mem.setVptr (m : Mem) (a v : Nat) : Mem :=
  m.write a { m a with ccdyn_vptr := v }

/-- The dummy vtable pointer `CcDummy::ccdyn_vptr()` stored in headers that do
not yet carry a real value (an arbitrary fixed address in the model). -/
def CcDummy.ccdyn_vptr : Nat := 1

/-- `ThreadedObjectSpace::insert` from `src/sync/collect.rs` lines 50-71,
with `s` the address of the sentinel `self.list` and `vptr` the second half of
the fat pointer of `value`.  The writes happen in source order:
`header.prev.set(prev)`, `header.next.set(next)`, `(*next).prev.set(header)`,
`header.ccdyn_vptr = fat_ptr[1]`, `prev.next.set(header)`. -/
def ThreadedObjectSpace.insert (m : Mem) (s hdr vptr : Nat) : Mem :=
  let prev := s
  let next := (m prev).next
  let m1 := m.setPrev hdr prev
  let m2 := m1.setNext hdr next
  let m3 := m2.setPrev next hdr
  let m4 := m3.setVptr hdr vptr
  m4.setNext prev hdr

/-- `ThreadedObjectSpace::remove` from `src/sync/collect.rs` lines 74-88.
The writes happen in source order: `(*prev).next.set(next)`,
`(*next).prev.set(prev)`, `header.next.set(null)`. -/
def ThreadedObjectSpace.remove (m : Mem) (hdr : Nat) : Mem :=
  let next := (m hdr).next
  let prev := (m hdr).prev
  let m1 := m.setNext prev next
  let m2 := m1.setPrev next prev
  m2.setNext hdr 0

/-- `ThreadedObjectSpace::empty_header` from `src/sync/collect.rs` lines
95-103: a fresh unlinked header with null `next`/`prev`, the dummy vtable
pointer, and the registry's shared structural-lock handle. -/
def ThreadedObjectSpace.empty_header (lockId : Nat) : Header :=
  { linked_list_lock := lockId
    next := 0
    prev := 0
    ccdyn_vptr := CcDummy.ccdyn_vptr }

/-- `ThreadedObjectSpace::default` from `src/sync/collect.rs` lines 106-124:
the sentinel header is allocated at address `s` with null links and the dummy
vtable pointer, then `header.prev.set(header)` and `header.next.set(header)`
make it self-looped. -/
def ThreadedObjectSpace.default (m : Mem) (s lockId : Nat) : Mem :=
  let m1 := m.write s
    { prev := 0
      next := 0
      ccdyn_vptr := CcDummy.ccdyn_vptr
      linked_list_lock := lockId }
  let m2 := m1.setPrev s s
  m2.setNext s s

/-- A run of adjacent list links: `chainOk m [a₁, …, aₙ]` holds when for each
adjacent pair `(aᵢ, aᵢ₊₁)` the heap has `(m aᵢ).next = aᵢ₊₁` and
`(m aᵢ₊₁).prev = aᵢ`. -/
def chainOk (m : Mem) : List Nat → Bool
  | a :: b :: rest => ((m a).next = b : Bool) && ((m b).prev = a : Bool)
      && chainOk m (b :: rest)
  | _ => true

/-- The registry list invariant: the circular doubly linked list rooted at the
sentinel `s` threads exactly the (non-null, duplicate-free) headers `L`, in
order, with consistent `next`/`prev` pointers all the way around the ring. -/
def wf (m : Mem) (s : Nat) (L : List Nat) : Prop :=
  chainOk m (s :: L ++ [s]) = true ∧ (s :: L).Nodup ∧ 0 ∉ (s :: L)

/-- Modelled from the spec: `collect::visit_list` (in `src/collect.rs`, not
part of the excerpt) visits every non-sentinel header once, walking `next`
pointers from `(m s).next` until the walk returns to the sentinel `s`.  The
model adds explicit fuel to bound the recursion. -/
def visit_list_count (m : Mem) (s : Nat) : Nat → Nat → Nat
  | 0, _ => 0
  | fuel + 1, cur => if cur = s then 0 else 1 + visit_list_count m s fuel (m cur).next

/-- `ThreadedObjectSpace::count_tracked` from `src/sync/collect.rs` lines
129-135: takes the structural lock and counts the headers visited by
`visit_list`. -/
def ThreadedObjectSpace.count_tracked (m : Mem) (s : Nat) (fuel : Nat) : Nat :=
  visit_list_count m s fuel (m s).next

/-! Part 3: lock-event traces.

The locking behaviour of `collect_cycles` (`src/sync/collect.rs` lines
140-150) and `remove` (lines 74-88) is modelled as the sequence of lock
events each routine performs, in program order. -/

inductive LockEvent where
  | acquireCollectorExclusive
  | acquireStructural
  | runCollectPass
  | runSplice
  | releaseStructural
  | releaseCollectorExclusive
deriving DecidableEq

/-- The lock events of `ThreadedObjectSpace::collect_cycles`, in program
order: `self.collector_lock.write()` (line 142), then
`self.list.linked_list_lock.lock()` (line 144), then the collection pass
`collect::collect_list(list, (linked_list_lock, collector_lock))` (line 147)
which consumes both guards.  Modelled from the spec: `collect_list` is not in
the excerpt; per the specification it holds both guards for the whole pass and
they are released (dropped) only when the pass finishes. -/
def collect_cycles_lock_trace : List LockEvent :=
  [.acquireCollectorExclusive, .acquireStructural, .runCollectPass,
   .releaseStructural, .releaseCollectorExclusive]

/-- The lock events of `ThreadedObjectSpace::remove`: it takes the structural
lock itself (`header.linked_list_lock.lock()`, line 75), splices under the
guard, and releases when the guard drops at the end of the function. -/
def remove_lock_trace : List LockEvent :=
  [.acquireStructural, .runSplice, .releaseStructural]

/-! Part 4: the trial-deletion collector (modelled from the spec).

`collect::collect_list` lives in `src/collect.rs`, which is not part of the
excerpt; only its caller `collect_cycles` is.  The model below follows the
specification's description of trial deletion: compute, for every tracked
object, its reference count minus the number of incoming references from
other tracked objects; objects left positive are externally rooted; restore
everything reachable from a rooted object; reclaim the rest and return how
many were reclaimed.  Objects carry a stable id (their address), a strong
reference count and their outgoing trace edges. -/

structure GcObj where
  id : Nat
  rc : Nat
  edges : List Nat
deriving DecidableEq

/-- The ids of the tracked objects of a registry. -/
def idsF (reg : List GcObj) : Finset Nat :=
  (reg.map GcObj.id).toFinset

/-- How many incoming references to id `i` originate from tracked objects:
one per occurrence of `i` among any tracked object's outgoing edges. -/
def inDegree (reg : List GcObj) (i : Nat) : Nat :=
  (reg.map (fun o => o.edges.count i)).sum

/-- Modelled from the spec: an object whose adjusted count stays positive
after tentatively subtracting every internal reference has an external root. -/
def isRoot (reg : List GcObj) (o : GcObj) : Bool :=
  inDegree reg o.id < o.rc

/-- The ids of the externally rooted objects. -/
def rootsF (reg : List GcObj) : Finset Nat :=
  ((reg.filter (isRoot reg)).map GcObj.id).toFinset

/-- The outgoing trace edges of the object with id `i` that point at tracked
objects of the registry (the tracer only ever receives references to tracked
objects). -/
def succsF (reg : List GcObj) (i : Nat) : Finset Nat :=
  match reg.find? (fun o => o.id == i) with
  | some o => (o.edges.filter (fun j => (reg.find? (fun p => p.id == j)).isSome)).toFinset
  | none => ∅

/-- One restore step: everything already live stays live, and everything a
live object references becomes live. -/
def liveStep (reg : List GcObj) (s : Finset Nat) : Finset Nat :=
  s ∪ s.biUnion (succsF reg)

/-- Iterate the restore step to a fixpoint, with enough fuel to saturate. -/
def liveIter (reg : List GcObj) : Nat → Finset Nat → Finset Nat
  | 0, s => s
  | fuel + 1, s =>
      if liveStep reg s ⊆ s then s else liveIter reg fuel (liveStep reg s)

/-- The set of live ids: everything reachable from an externally rooted
object.  One more iteration than there are tracked ids always saturates. -/
def liveSet (reg : List GcObj) : Finset Nat :=
  liveIter reg ((idsF reg).card + 1) (rootsF reg)

/-- Modelled from the spec: `collect::collect_list` (in `src/collect.rs`, not
part of the excerpt) performs the trial-deletion pass — objects not reachable
from an externally rooted object are reclaimed; the pass returns the number of
objects reclaimed, and the registry afterwards holds exactly the live
objects. -/
def collect_list (reg : List GcObj) : Nat × List GcObj :=
  ((reg.filter (fun o => decide (o.id ∉ liveSet reg))).length,
   reg.filter (fun o => decide (o.id ∈ liveSet reg)))

/-- The specification-side notion of reachability: an object is reachable
from an external root when it is externally rooted itself, or one trace edge
away from a reachable object. -/
inductive ReachesFromRoot (reg : List GcObj) : Nat → Prop where
  | root : ∀ i, i ∈ rootsF reg → ReachesFromRoot reg i
  | step : ∀ i j, ReachesFromRoot reg i → j ∈ succsF reg i → ReachesFromRoot reg j

/-- A set of ids closed under the trace edges of the registry. -/
def EdgeClosed (reg : List GcObj) (S : Finset Nat) : Prop :=
  ∀ i ∈ S, succsF reg i ⊆ S

/-! Part 5: the `trace` visitors (`src/trace_impls.rs`).

`TValue` is a value-level model of traceable data: a tracked-object reference
(which reports its id to the tracer), an acyclic leaf, a two-field product
(the `trace_fields!` tuple shape, which traces every field), a `RefCell` with
its current borrow state, and a `Mutex` with its current lock state.
`TValue.trace` computes the list of ids reported to the tracer exactly as the
source `trace` implementations do; `TValue.heldRefs` computes every reference
the value actually holds. -/

inductive TValue where
  | obj (id : Nat)
  | leaf
  | pair (a b : TValue)
  | refCell (borrowed : Bool) (inner : TValue)
  | mutex (locked : Bool) (inner : TValue)

/-- The ids reported to the tracer.  Tuples trace every field
(`trace_fields!`); `RefCell<T>::trace` is `if let Ok(x) = self.try_borrow()`,
so a currently borrowed cell reports nothing; `Mutex<T>::trace` is
`if let Ok(x) = self.try_lock()`, so a currently locked mutex reports
nothing. -/
def TValue.trace : TValue → List Nat
  | .obj i => [i]
  | .leaf => []
  | .pair a b => a.trace ++ b.trace
  | .refCell borrowed inner => if borrowed then [] else inner.trace
  | .mutex locked inner => if locked then [] else inner.trace

/-- Every outgoing reference the value holds, regardless of borrow or lock
state. -/
def TValue.heldRefs : TValue → List Nat
  | .obj i => [i]
  | .leaf => []
  | .pair a b => a.heldRefs ++ b.heldRefs
  | .refCell _ inner => inner.heldRefs
  | .mutex _ inner => inner.heldRefs

/-- No interior cell of the value is currently borrowed and no interior mutex
is currently locked. -/
def TValue.unobstructed : TValue → Bool
  | .obj _ => true
  | .leaf => true
  | .pair a b => a.unobstructed && b.unobstructed
  | .refCell borrowed inner => !borrowed && inner.unobstructed
  | .mutex locked inner => !locked && inner.unobstructed

/-- A concrete registry used by witnesses for the collector: object 10 (with
one external reference besides the one internal reference, so externally
rooted) and object 11 reference each other in a cycle, and object 11 is kept
alive only through the root 10. -/
def regW : List GcObj := [⟨10, 2, [11]⟩, ⟨11, 1, [10]⟩]

/-- A concrete two-node registry heap used by witnesses: the sentinel at
address 1 and one tracked header at address 2 form a ring (lock id 5, vtable
pointer 9); every other address holds an unlinked empty header. -/
def memW : Mem := fun a =>
  if a = 1 then ⟨2, 2, 1, 5⟩
  else if a = 2 then ⟨1, 1, 9, 5⟩
  else ThreadedObjectSpace.empty_header 5

/-! Lemmas and claim theorems. -/

theorem Mem.write_self (m : Mem) (a : Nat) (h : Header) : m.write a h a = h := by
  simp [Mem.write]

theorem Mem.write_other (m : Mem) (a b : Nat) (h : Header) (hne : b ≠ a) :
    m.write a h b = m b := by
  simp [Mem.write, hne]

/-- C7: `is_type_tracked()` composes over constituent types: tuples, maps and
`Result` are the logical OR of their constituents' predicates; single-element
containers (`Vec`, `Option`, `Box`, `Cell`, `RefCell`, `OnceCell`, `Mutex`,
`RwLock`, `LinkedList`, `VecDeque`) delegate to their element; in particular
the pair `(bool, f64)` of two acyclic leaves reports `false` while
`Vec<Box<dyn Trace>>` reports `true`. -/
theorem is_type_tracked_composes :
    (∀ a b : Ty, is_type_tracked (.tuple2 a b)
        = (is_type_tracked a || is_type_tracked b)) ∧
    (∀ a b c : Ty, is_type_tracked (.tuple3 a b c)
        = (is_type_tracked a || is_type_tracked b || is_type_tracked c)) ∧
    (∀ k v : Ty, is_type_tracked (.btreeMap k v)
        = (is_type_tracked k || is_type_tracked v)) ∧
    (∀ k v : Ty, is_type_tracked (.hashMap k v)
        = (is_type_tracked k || is_type_tracked v)) ∧
    (∀ t u : Ty, is_type_tracked (.result t u)
        = (is_type_tracked t || is_type_tracked u)) ∧
    (∀ t : Ty, is_type_tracked (.vec t) = is_type_tracked t) ∧
    (∀ t : Ty, is_type_tracked (.option t) = is_type_tracked t) ∧
    (∀ t : Ty, is_type_tracked (.box t) = is_type_tracked t) ∧
    (∀ t : Ty, is_type_tracked (.cell t) = is_type_tracked t) ∧
    (∀ t : Ty, is_type_tracked (.refCell t) = is_type_tracked t) ∧
    (∀ t : Ty, is_type_tracked (.onceCell t) = is_type_tracked t) ∧
    (∀ t : Ty, is_type_tracked (.mutex t) = is_type_tracked t) ∧
    (∀ t : Ty, is_type_tracked (.rwLock t) = is_type_tracked t) ∧
    (∀ t : Ty, is_type_tracked (.linkedList t) = is_type_tracked t) ∧
    (∀ t : Ty, is_type_tracked (.vecDeque t) = is_type_tracked t) ∧
    is_type_tracked (.tuple2 .bool .f64) = false ∧
    is_type_tracked (.vec .boxDynTrace) = true := by
  refine ⟨fun a b => rfl, fun a b c => rfl, fun k v => rfl, fun k v => rfl,
    fun t u => rfl, fun t => rfl, fun t => rfl, fun t => rfl, fun t => rfl,
    fun t => rfl, fun t => rfl, fun t => rfl, fun t => rfl, fun t => rfl,
    fun t => rfl, rfl, rfl⟩

/-- C10: `Rc<T>`, `rc::Weak<T>` and `Arc<T>` report `is_type_tracked() = false`
for every parameter type `T`, even when `T` itself is tracked (for example
`Box<dyn Trace>`), so the tracked graph never extends through an `Rc`/`Arc`
indirection. -/
theorem rc_weak_arc_untracked :
    (∀ t : Ty, is_type_tracked (.rc t) = false) ∧
    (∀ t : Ty, is_type_tracked (.rcWeak t) = false) ∧
    (∀ t : Ty, is_type_tracked (.arc t) = false) ∧
    is_type_tracked (.rc .boxDynTrace) = false ∧
    is_type_tracked (.arc .boxDynTrace) = false ∧
    is_type_tracked .boxDynTrace = true := by
  exact ⟨fun t => rfl, fun t => rfl, fun t => rfl, rfl, rfl, rfl⟩

/-- C1: `collect_cycles()` first acquires the collector-exclusion lock in
exclusive (write) mode, then the structural lock; each lock is acquired and
released exactly once; the collection pass happens strictly after both
acquisitions and strictly before both releases, so both locks are held for the
whole pass and released only when the pass finishes. -/
theorem collect_cycles_lock_order :
    collect_cycles_lock_trace.indexOf .acquireCollectorExclusive
      < collect_cycles_lock_trace.indexOf .acquireStructural ∧
    collect_cycles_lock_trace.indexOf .acquireStructural
      < collect_cycles_lock_trace.indexOf .runCollectPass ∧
    collect_cycles_lock_trace.indexOf .runCollectPass
      < collect_cycles_lock_trace.indexOf .releaseStructural ∧
    collect_cycles_lock_trace.indexOf .runCollectPass
      < collect_cycles_lock_trace.indexOf .releaseCollectorExclusive ∧
    collect_cycles_lock_trace.count .acquireCollectorExclusive = 1 ∧
    collect_cycles_lock_trace.count .acquireStructural = 1 ∧
    collect_cycles_lock_trace.count .runCollectPass = 1 ∧
    collect_cycles_lock_trace.count .releaseStructural = 1 ∧
    collect_cycles_lock_trace.count .releaseCollectorExclusive = 1 := by
  decide

/-- C8 counterexample: a `RefCell` that is currently borrowed holds an
outgoing reference (to the object with id 0) but its `trace` reports nothing,
because `RefCell<T>::trace` silently skips the contents when `try_borrow()`
fails.  So `trace` is not complete regardless of runtime state. -/
theorem trace_skips_borrowed_refcell :
    (TValue.refCell true (.obj 0)).trace = [] ∧
    (TValue.refCell true (.obj 0)).heldRefs = [0] ∧
    (TValue.refCell true (.obj 0)).trace ≠ (TValue.refCell true (.obj 0)).heldRefs := by
  exact ⟨rfl, rfl, by decide⟩

/-- C8 (amended): `trace(tracer)` reports every outgoing reference the value
holds provided no interior `RefCell` is currently borrowed and no interior
`Mutex` is currently locked; a borrowed cell or locked mutex is skipped
entirely. -/
theorem trace_complete_of_unobstructed (v : TValue)
    (h : v.unobstructed = true) : v.trace = v.heldRefs := by
  induction v with
  | obj i => rfl
  | leaf => rfl
  | pair a b iha ihb =>
      simp only [TValue.unobstructed, Bool.and_eq_true] at h
      simp [TValue.trace, TValue.heldRefs, iha h.1, ihb h.2]
  | refCell borrowed inner ih =>
      simp only [TValue.unobstructed, Bool.and_eq_true, Bool.not_eq_true'] at h
      simp [TValue.trace, TValue.heldRefs, h.1, ih h.2]
  | mutex locked inner ih =>
      simp only [TValue.unobstructed, Bool.and_eq_true, Bool.not_eq_true'] at h
      simp [TValue.trace, TValue.heldRefs, h.1, ih h.2]

/-- C8 witness: an unborrowed `RefCell` holding a pair of two tracked
references traces exactly the references it holds. -/
theorem trace_complete_of_unobstructed_witness :
    (TValue.refCell false (.pair (.obj 3) (.mutex false (.obj 4)))).unobstructed = true ∧
    (TValue.refCell false (.pair (.obj 3) (.mutex false (.obj 4)))).trace
      = (TValue.refCell false (.pair (.obj 3) (.mutex false (.obj 4)))).heldRefs :=
  ⟨by decide, trace_complete_of_unobstructed _ (by decide)⟩

theorem Mem.setNext_self_next (m : Mem) (a v : Nat) : (m.setNext a v a).next = v := by
  simp [Mem.setNext, Mem.write]

theorem Mem.setPrev_self_prev (m : Mem) (a v : Nat) : (m.setPrev a v a).prev = v := by
  simp [Mem.setPrev, Mem.write]

theorem Mem.setNext_other (m : Mem) (a v b : Nat) (h : b ≠ a) : m.setNext a v b = m b := by
  simp [Mem.setNext, Mem.write, h]

theorem Mem.setPrev_other (m : Mem) (a v b : Nat) (h : b ≠ a) : m.setPrev a v b = m b := by
  simp [Mem.setPrev, Mem.write, h]

theorem Mem.setVptr_other (m : Mem) (a v b : Nat) (h : b ≠ a) : m.setVptr a v b = m b := by
  simp [Mem.setVptr, Mem.write, h]

theorem Mem.setNext_prev (m : Mem) (a v b : Nat) : (m.setNext a v b).prev = (m b).prev := by
  by_cases h : b = a <;> simp [Mem.setNext, Mem.write, h]

theorem Mem.setNext_ccdyn_vptr (m : Mem) (a v b : Nat) :
    (m.setNext a v b).ccdyn_vptr = (m b).ccdyn_vptr := by
  by_cases h : b = a <;> simp [Mem.setNext, Mem.write, h]

theorem Mem.setNext_lock (m : Mem) (a v b : Nat) :
    (m.setNext a v b).linked_list_lock = (m b).linked_list_lock := by
  by_cases h : b = a <;> simp [Mem.setNext, Mem.write, h]

theorem Mem.setPrev_next (m : Mem) (a v b : Nat) : (m.setPrev a v b).next = (m b).next := by
  by_cases h : b = a <;> simp [Mem.setPrev, Mem.write, h]

theorem Mem.setPrev_ccdyn_vptr (m : Mem) (a v b : Nat) :
    (m.setPrev a v b).ccdyn_vptr = (m b).ccdyn_vptr := by
  by_cases h : b = a <;> simp [Mem.setPrev, Mem.write, h]

theorem Mem.setPrev_lock (m : Mem) (a v b : Nat) :
    (m.setPrev a v b).linked_list_lock = (m b).linked_list_lock := by
  by_cases h : b = a <;> simp [Mem.setPrev, Mem.write, h]

theorem Mem.setVptr_next (m : Mem) (a v b : Nat) : (m.setVptr a v b).next = (m b).next := by
  by_cases h : b = a <;> simp [Mem.setVptr, Mem.write, h]

theorem Mem.setVptr_prev (m : Mem) (a v b : Nat) : (m.setVptr a v b).prev = (m b).prev := by
  by_cases h : b = a <;> simp [Mem.setVptr, Mem.write, h]

theorem Mem.setVptr_lock (m : Mem) (a v b : Nat) :
    (m.setVptr a v b).linked_list_lock = (m b).linked_list_lock := by
  by_cases h : b = a <;> simp [Mem.setVptr, Mem.write, h]

theorem Mem.setVptr_self_vptr (m : Mem) (a v : Nat) : (m.setVptr a v a).ccdyn_vptr = v := by
  simp [Mem.setVptr, Mem.write]

/-- C3: under the documented preconditions (the structural lock is held by the
caller and the header is freshly unlinked, `next` null), `insert(header,
value)` links the header immediately after the sentinel `s`: afterwards
`s.next = header`, `header.next` is the old `s.next`, `header.prev = s`, the
old successor's `prev` points back at the header, and the value's vtable
pointer is stored into the header. -/
theorem insert_links_after_sentinel (m : Mem) (s hdr vptr : Nat)
    (hs : hdr ≠ s) (hn : hdr ≠ (m s).next) (_hnull : (m hdr).next = 0) :
    (ThreadedObjectSpace.insert m s hdr vptr s).next = hdr ∧
    (ThreadedObjectSpace.insert m s hdr vptr hdr).next = (m s).next ∧
    (ThreadedObjectSpace.insert m s hdr vptr hdr).prev = s ∧
    (ThreadedObjectSpace.insert m s hdr vptr ((m s).next)).prev = hdr ∧
    (ThreadedObjectSpace.insert m s hdr vptr hdr).ccdyn_vptr = vptr := by
  unfold ThreadedObjectSpace.insert
  refine ⟨?_, ?_, ?_, ?_, ?_⟩
  · rw [Mem.setNext_self_next]
  · rw [Mem.setNext_other _ _ _ _ hs, Mem.setVptr_next,
      Mem.setPrev_other _ _ _ _ hn, Mem.setNext_self_next]
  · rw [Mem.setNext_other _ _ _ _ hs, Mem.setVptr_prev,
      Mem.setPrev_other _ _ _ _ hn, Mem.setNext_prev, Mem.setPrev_self_prev]
  · by_cases hss : (m s).next = s
    · rw [hss, Mem.setNext_prev, Mem.setVptr_prev, Mem.setPrev_self_prev]
    · rw [Mem.setNext_other _ _ _ _ hss, Mem.setVptr_other _ _ _ _ (Ne.symm hn),
        Mem.setPrev_self_prev]
  · rw [Mem.setNext_ccdyn_vptr, Mem.setVptr_self_vptr]

/-- C3 witness: inserting header 2 into a fresh one-sentinel registry at
address 1. -/
theorem insert_links_after_sentinel_witness :
    (2 ≠ 1 ∧ 2 ≠ ((fun _ => ThreadedObjectSpace.empty_header 5 : Mem) 1).next ∧
      ((fun _ => ThreadedObjectSpace.empty_header 5 : Mem) 2).next = 0) ∧
    (ThreadedObjectSpace.insert (fun _ => ThreadedObjectSpace.empty_header 5) 1 2 9 1).next = 2 :=
  ⟨⟨by decide, by decide, by decide⟩,
    (insert_links_after_sentinel (fun _ => ThreadedObjectSpace.empty_header 5) 1 2 9
      (by decide) (by decide) (by decide)).1⟩

/-- C4: `remove(header)`, given a linked header distinct from its neighbors,
takes the structural lock internally around the splice (lock-event order:
acquire, splice, release), splices its neighbors together
(`prev.next := header.next` and `next.prev := header.prev`), and clears the
header's own `next` pointer to null. -/
theorem remove_splices_neighbors (m : Mem) (hdr : Nat)
    (hp : hdr ≠ (m hdr).prev) (hn : hdr ≠ (m hdr).next) :
    (ThreadedObjectSpace.remove m hdr ((m hdr).prev)).next = (m hdr).next ∧
    (ThreadedObjectSpace.remove m hdr ((m hdr).next)).prev = (m hdr).prev ∧
    (ThreadedObjectSpace.remove m hdr hdr).next = 0 ∧
    remove_lock_trace.indexOf .acquireStructural
      < remove_lock_trace.indexOf .runSplice ∧
    remove_lock_trace.indexOf .runSplice
      < remove_lock_trace.indexOf .releaseStructural := by
  unfold ThreadedObjectSpace.remove
  refine ⟨?_, ?_, ?_, by decide, by decide⟩
  · rw [Mem.setNext_other _ _ _ _ (Ne.symm hp), Mem.setPrev_next]
    by_cases hpn : (m hdr).prev = (m hdr).next
    · rw [hpn, Mem.setNext_self_next]
    · rw [Mem.setNext_self_next]
  · rw [Mem.setNext_other _ _ _ _ (Ne.symm hn), Mem.setPrev_self_prev]
  · rw [Mem.setNext_self_next]

/-- C4 witness: removing header 2 from the two-element ring sentinel 1 ↔ 2. -/
theorem remove_splices_neighbors_witness :
    (2 ≠ ((fun a => if a = 1 then ⟨2, 2, 1, 5⟩ else if a = 2 then ⟨1, 1, 9, 5⟩
        else ThreadedObjectSpace.empty_header 5 : Mem) 2).prev ∧
     2 ≠ ((fun a => if a = 1 then ⟨2, 2, 1, 5⟩ else if a = 2 then ⟨1, 1, 9, 5⟩
        else ThreadedObjectSpace.empty_header 5 : Mem) 2).next) ∧
    (ThreadedObjectSpace.remove (fun a => if a = 1 then ⟨2, 2, 1, 5⟩
        else if a = 2 then ⟨1, 1, 9, 5⟩ else ThreadedObjectSpace.empty_header 5) 2 2).next = 0 :=
  ⟨⟨by decide, by decide⟩,
    (remove_splices_neighbors (fun a => if a = 1 then ⟨2, 2, 1, 5⟩
        else if a = 2 then ⟨1, 1, 9, 5⟩ else ThreadedObjectSpace.empty_header 5) 2
      (by decide) (by decide)).2.2.1⟩

/-- C9: `remove(header)` only writes `prev.next`, `next.prev` and the
header's own `next`: every header other than these three is untouched, the
removed header keeps its `prev` pointer (still the address of the former
neighbor), every header keeps its vtable pointer and its lock handle, and
afterwards the removed header's `next` is null. -/
theorem remove_frame (m : Mem) (hdr : Nat)
    (hp : hdr ≠ (m hdr).prev) (hn : hdr ≠ (m hdr).next) :
    (∀ a, a ≠ hdr → a ≠ (m hdr).prev → a ≠ (m hdr).next →
      ThreadedObjectSpace.remove m hdr a = m a) ∧
    (ThreadedObjectSpace.remove m hdr hdr).prev = (m hdr).prev ∧
    (∀ a, (ThreadedObjectSpace.remove m hdr a).ccdyn_vptr = (m a).ccdyn_vptr ∧
      (ThreadedObjectSpace.remove m hdr a).linked_list_lock = (m a).linked_list_lock) ∧
    (ThreadedObjectSpace.remove m hdr hdr).next = 0 := by
  unfold ThreadedObjectSpace.remove
  refine ⟨?_, ?_, ?_, ?_⟩
  · intro a h1 h2 h3
    rw [Mem.setNext_other _ _ _ _ h1, Mem.setPrev_other _ _ _ _ h3,
      Mem.setNext_other _ _ _ _ h2]
  · rw [Mem.setNext_prev, Mem.setPrev_other _ _ _ _ hn, Mem.setNext_other _ _ _ _ hp]
  · intro a
    constructor
    · rw [Mem.setNext_ccdyn_vptr, Mem.setPrev_ccdyn_vptr, Mem.setNext_ccdyn_vptr]
    · rw [Mem.setNext_lock, Mem.setPrev_lock, Mem.setNext_lock]
  · rw [Mem.setNext_self_next]

/-- C9 witness: removing header 2 from the ring 1 ↔ 2 ↔ 3 leaves header 3's
record intact and keeps header 2's `prev` pointing at the sentinel. -/
theorem remove_frame_witness :
    (2 ≠ ((fun a => if a = 1 then ⟨2, 3, 1, 5⟩ else if a = 2 then ⟨3, 1, 9, 5⟩
        else if a = 3 then ⟨1, 2, 9, 5⟩ else ThreadedObjectSpace.empty_header 5 : Mem) 2).prev ∧
     2 ≠ ((fun a => if a = 1 then ⟨2, 3, 1, 5⟩ else if a = 2 then ⟨3, 1, 9, 5⟩
        else if a = 3 then ⟨1, 2, 9, 5⟩ else ThreadedObjectSpace.empty_header 5 : Mem) 2).next) ∧
    (ThreadedObjectSpace.remove (fun a => if a = 1 then ⟨2, 3, 1, 5⟩
        else if a = 2 then ⟨3, 1, 9, 5⟩ else if a = 3 then ⟨1, 2, 9, 5⟩
        else ThreadedObjectSpace.empty_header 5) 2 2).prev
      = ((fun a => if a = 1 then ⟨2, 3, 1, 5⟩ else if a = 2 then ⟨3, 1, 9, 5⟩
        else if a = 3 then ⟨1, 2, 9, 5⟩ else ThreadedObjectSpace.empty_header 5 : Mem) 2).prev :=
  ⟨⟨by decide, by decide⟩,
    (remove_frame (fun a => if a = 1 then ⟨2, 3, 1, 5⟩ else if a = 2 then ⟨3, 1, 9, 5⟩
        else if a = 3 then ⟨1, 2, 9, 5⟩ else ThreadedObjectSpace.empty_header 5) 2
      (by decide) (by decide)).2.1⟩

theorem chainOk_cons_cons (m : Mem) (a b : Nat) (l : List Nat) :
    chainOk m (a :: b :: l) = true ↔
      (m a).next = b ∧ (m b).prev = a ∧ chainOk m (b :: l) = true := by
  simp [chainOk, Bool.and_eq_true, decide_eq_true_eq, and_assoc]

theorem chainOk_tail (m : Mem) (a : Nat) (l : List Nat)
    (h : chainOk m (a :: l) = true) : chainOk m l = true := by
  cases l with
  | nil => rfl
  | cons b r => exact ((chainOk_cons_cons m a b r).mp h).2.2

theorem chainOk_agree (m m' : Mem) :
    ∀ l : List Nat,
    (∀ a ∈ l.dropLast, (m' a).next = (m a).next) →
    (∀ a ∈ l.tail, (m' a).prev = (m a).prev) →
    chainOk m l = true → chainOk m' l = true := by
  intro l
  induction l with
  | nil => intro _ _ _; rfl
  | cons a t ih =>
    cases t with
    | nil => intro _ _ _; rfl
    | cons b r =>
      intro hnext hprev hc
      rw [chainOk_cons_cons] at hc
      obtain ⟨h1, h2, h3⟩ := hc
      rw [chainOk_cons_cons]
      refine ⟨?_, ?_, ?_⟩
      · rw [hnext a (by simp [List.dropLast]), h1]
      · rw [hprev b (by simp), h2]
      · refine ih ?_ ?_ h3
        · intro x hx
          refine hnext x ?_
          simpa [List.dropLast] using Or.inr hx
        · intro x hx
          exact hprev x (List.mem_cons_of_mem b hx)

theorem chain_next_mem (m : Mem) :
    ∀ l : List Nat, chainOk m l = true → ∀ a ∈ l.dropLast, (m a).next ∈ l := by
  intro l
  induction l with
  | nil => intro _ a ha; simp at ha
  | cons x t ih =>
    cases t with
    | nil => intro _ a ha; simp [List.dropLast] at ha
    | cons b r =>
      intro hc a ha
      rw [chainOk_cons_cons] at hc
      obtain ⟨h1, _, h3⟩ := hc
      rcases (by simpa [List.dropLast] using ha : a = x ∨ a ∈ (b :: r).dropLast) with
        heq | hmem
      · subst heq; rw [h1]; simp
      · exact List.mem_cons_of_mem x (ih h3 a hmem)

theorem chain_prev_mem (m : Mem) :
    ∀ l : List Nat, chainOk m l = true → ∀ a ∈ l.tail, (m a).prev ∈ l := by
  intro l
  induction l with
  | nil => intro _ a ha; simp at ha
  | cons x t ih =>
    cases t with
    | nil => intro _ a ha; simp at ha
    | cons b r =>
      intro hc a ha
      rw [chainOk_cons_cons] at hc
      obtain ⟨_, h2, h3⟩ := hc
      rcases (by simpa using ha : a = b ∨ a ∈ r) with heq | hmem
      · subst heq; rw [h2]; simp
      · exact List.mem_cons_of_mem x (ih h3 a (by simpa using hmem))

theorem chain_last_prev (m : Mem) :
    ∀ (front : List Nat) (x : Nat) (rest : List Nat) (hne : front ≠ []),
    chainOk m (front ++ x :: rest) = true → (m x).prev = front.getLast hne := by
  intro front
  induction front with
  | nil => intro x rest hne; exact absurd rfl hne
  | cons a t ih =>
    intro x rest _ hc
    cases t with
    | nil =>
      simp only [List.cons_append, List.nil_append] at hc
      rw [chainOk_cons_cons] at hc
      simp [hc.2.1]
    | cons b r =>
      have hc' : chainOk m ((b :: r) ++ x :: rest) = true :=
        chainOk_tail m a _ (by simpa using hc)
      rw [ih x rest (List.cons_ne_nil b r) hc']
      exact (List.getLast_cons (List.cons_ne_nil b r)).symm

theorem chain_pre_next (m : Mem) :
    ∀ (front : List Nat) (x b : Nat) (rest : List Nat),
    chainOk m (front ++ x :: b :: rest) = true → (m x).next = b := by
  intro front
  induction front with
  | nil =>
    intro x b rest hc
    simp only [List.nil_append] at hc
    exact ((chainOk_cons_cons m x b rest).mp hc).1
  | cons a t ih =>
    intro x b rest hc
    refine ih x b rest (chainOk_tail m a _ (by simpa using hc))

theorem insert_next_eq (m : Mem) (s hdr vptr a : Nat) :
    (ThreadedObjectSpace.insert m s hdr vptr a).next
      = if a = s then hdr else if a = hdr then (m s).next else (m a).next := by
  unfold ThreadedObjectSpace.insert
  by_cases h1 : a = s
  · subst h1; simp [Mem.setNext_self_next]
  · by_cases h2 : a = hdr
    · subst h2
      rw [Mem.setNext_other _ _ _ _ h1, Mem.setVptr_next, Mem.setPrev_next,
        Mem.setNext_self_next]
      simp [h1]
    · rw [Mem.setNext_other _ _ _ _ h1, Mem.setVptr_next, Mem.setPrev_next,
        Mem.setNext_other _ _ _ _ h2, Mem.setPrev_other _ _ _ _ h2]
      simp [h1, h2]

theorem insert_prev_eq (m : Mem) (s hdr vptr a : Nat) :
    (ThreadedObjectSpace.insert m s hdr vptr a).prev
      = if a = (m s).next then hdr else if a = hdr then s else (m a).prev := by
  unfold ThreadedObjectSpace.insert
  by_cases h1 : a = (m s).next
  · subst h1; rw [Mem.setNext_prev, Mem.setVptr_prev, Mem.setPrev_self_prev]; simp
  · by_cases h2 : a = hdr
    · subst h2
      rw [Mem.setNext_prev, Mem.setVptr_prev, Mem.setPrev_other _ _ _ _ h1,
        Mem.setNext_prev, Mem.setPrev_self_prev]
      simp [h1]
    · rw [Mem.setNext_prev, Mem.setVptr_prev, Mem.setPrev_other _ _ _ _ h1,
        Mem.setNext_prev, Mem.setPrev_other _ _ _ _ h2]
      simp [h1, h2]

theorem remove_next_eq (m : Mem) (hdr a : Nat) :
    (ThreadedObjectSpace.remove m hdr a).next
      = if a = hdr then 0
        else if a = (m hdr).prev then (m hdr).next else (m a).next := by
  unfold ThreadedObjectSpace.remove
  by_cases h1 : a = hdr
  · subst h1; rw [Mem.setNext_self_next]; simp
  · by_cases h2 : a = (m hdr).prev
    · subst h2
      rw [Mem.setNext_other _ _ _ _ h1, Mem.setPrev_next, Mem.setNext_self_next]
      simp [h1]
    · rw [Mem.setNext_other _ _ _ _ h1, Mem.setPrev_next,
        Mem.setNext_other _ _ _ _ h2]
      simp [h1, h2]

theorem remove_prev_eq (m : Mem) (hdr a : Nat) :
    (ThreadedObjectSpace.remove m hdr a).prev
      = if a = (m hdr).next then (m hdr).prev else (m a).prev := by
  unfold ThreadedObjectSpace.remove
  by_cases h1 : a = (m hdr).next
  · subst h1; rw [Mem.setNext_prev, Mem.setPrev_self_prev]; simp
  · rw [Mem.setNext_prev, Mem.setPrev_other _ _ _ _ h1, Mem.setNext_prev]
    simp [h1]

theorem wf_default (m : Mem) (s lockId : Nat) (hs : s ≠ 0) :
    wf (ThreadedObjectSpace.default m s lockId) s [] := by
  have h1 : (ThreadedObjectSpace.default m s lockId s).next = s := by
    unfold ThreadedObjectSpace.default; rw [Mem.setNext_self_next]
  have h2 : (ThreadedObjectSpace.default m s lockId s).prev = s := by
    unfold ThreadedObjectSpace.default; rw [Mem.setNext_prev, Mem.setPrev_self_prev]
  refine ⟨?_, by simp, by simp [(Ne.symm hs : 0 ≠ s)]⟩
  show chainOk _ (s :: s :: []) = true
  rw [chainOk_cons_cons]
  exact ⟨h1, h2, rfl⟩

theorem wf_insert (m : Mem) (s hdr vptr : Nat) (L : List Nat)
    (hwf : wf m s L) (h0 : hdr ≠ 0) (hmem : hdr ∉ s :: L) :
    wf (ThreadedObjectSpace.insert m s hdr vptr) s (hdr :: L) := by
  obtain ⟨hc, hnd, hz⟩ := hwf
  have hs : hdr ≠ s := fun h => hmem (h ▸ List.mem_cons_self s L)
  have hdL : hdr ∉ L := fun h => hmem (List.mem_cons_of_mem s h)
  have hsL : s ∉ L := (List.nodup_cons.mp hnd).1
  have hndL : L.Nodup := (List.nodup_cons.mp hnd).2
  refine ⟨?_, ?_, ?_⟩
  · cases L with
    | nil =>
      have h1 : (m s).next = s := ((chainOk_cons_cons m s s []).mp hc).1
      show chainOk _ (s :: hdr :: s :: []) = true
      rw [chainOk_cons_cons, chainOk_cons_cons]
      refine ⟨?_, ?_, ?_, ?_, rfl⟩
      · rw [insert_next_eq]; simp
      · rw [insert_prev_eq, h1]; simp [hs]
      · rw [insert_next_eq, h1]; simp [hs]
      · rw [insert_prev_eq, h1]; simp
    | cons x L' =>
      have h1 := (chainOk_cons_cons m s x (L' ++ [s])).mp (by simpa using hc)
      obtain ⟨hsx, hxs, hcrest⟩ := h1
      have hxL' : x ∉ L' := (List.nodup_cons.mp hndL).1
      have hsnex : s ≠ x := fun h => hsL (h ▸ List.mem_cons_self x L')
      have hdx : hdr ≠ x := fun h => hdL (h ▸ List.mem_cons_self x L')
      show chainOk _ (s :: hdr :: (x :: L') ++ [s]) = true
      have hre : s :: hdr :: (x :: L') ++ [s] = s :: hdr :: x :: (L' ++ [s]) := by simp
      rw [hre, chainOk_cons_cons, chainOk_cons_cons]
      refine ⟨?_, ?_, ?_, ?_, ?_⟩
      · rw [insert_next_eq]; simp
      · rw [insert_prev_eq, hsx]; simp [hs, hdx]
      · rw [insert_next_eq, hsx]; simp [hs]
      · rw [insert_prev_eq, hsx]; simp
      · refine chainOk_agree m _ (x :: L' ++ [s]) ?_ ?_ hcrest
        · intro a ha
          have hdl : ((x :: L') ++ [s]).dropLast = x :: L' := List.dropLast_concat ..
          rw [hdl] at ha
          have h1 : a ≠ s := fun h => hsL (h ▸ ha)
          have h2 : a ≠ hdr := fun h => hdL (h ▸ ha)
          rw [insert_next_eq]; simp [h1, h2]
        · intro a ha
          have ha' : a ∈ L' ++ [s] := ha
          have h1 : a ≠ x := by
            rcases List.mem_append.mp ha' with h | h
            · exact fun he => hxL' (he ▸ h)
            · simp at h
              exact fun he => hsnex (h.symm.trans he)
          have h2 : a ≠ hdr := by
            rcases List.mem_append.mp ha' with h | h
            · exact fun he => hdL (he ▸ List.mem_cons_of_mem x h)
            · simp at h
              exact fun he => hs (he.symm.trans h)
          rw [insert_prev_eq, hsx]; simp [h1, h2]
  · simp only [List.nodup_cons, List.mem_cons] at hnd ⊢
    refine ⟨?_, ⟨hdL, hndL⟩⟩
    rintro (h | h)
    · exact hs h.symm
    · exact hsL h
  · simp only [List.mem_cons] at hz ⊢
    push_neg at hz ⊢
    exact ⟨hz.1, Ne.symm h0, hz.2⟩

theorem chainOk_remove_splice (m : Mem) (hdr : Nat) :
    ∀ (front L2 : List Nat) (t : Nat),
    chainOk m (front ++ hdr :: L2 ++ [t]) = true →
    front ≠ [] → hdr ∉ front → hdr ∉ L2 → hdr ≠ t →
    front.Nodup → L2.Nodup → (∀ x ∈ front, x ∉ L2) →
    t ∉ front.tail → t ∉ L2 →
    chainOk (ThreadedObjectSpace.remove m hdr) (front ++ L2 ++ [t]) = true := by
  intro front
  induction front with
  | nil => intro L2 t _ hne; exact absurd rfl hne
  | cons a f ih =>
    intro L2 t hc _ hhf hhL2 hht hndf hndL2 hdisj htf htL2
    have hah : a ≠ hdr := fun h => hhf (by simp [h])
    cases f with
    | nil =>
      have h1 := (chainOk_cons_cons m a hdr (L2 ++ [t])).mp (by simpa using hc)
      obtain ⟨hanext, hprev_a, hc2⟩ := h1
      cases L2 with
      | nil =>
        have h2 := (chainOk_cons_cons m hdr t []).mp (by simpa using hc2)
        show chainOk _ (a :: t :: []) = true
        rw [chainOk_cons_cons]
        refine ⟨?_, ?_, rfl⟩
        · rw [remove_next_eq, hprev_a]
          simp [hah, h2.1]
        · rw [remove_prev_eq, h2.1]
          simp [hprev_a]
      | cons x L2' =>
        have h2 := (chainOk_cons_cons m hdr x (L2' ++ [t])).mp (by simpa using hc2)
        obtain ⟨hhnext, hxprev, hc3⟩ := h2
        have haL2 : a ∉ x :: L2' := hdisj a (by simp)
        show chainOk _ (a :: x :: (L2' ++ [t])) = true
        rw [chainOk_cons_cons]
        refine ⟨?_, ?_, ?_⟩
        · rw [remove_next_eq, hprev_a]
          simp [hah, hhnext]
        · rw [remove_prev_eq, hhnext]
          simpa using hprev_a
        · refine chainOk_agree m _ ((x :: L2') ++ [t]) ?_ ?_ hc3
          · intro y hy
            have hdl : ((x :: L2') ++ [t]).dropLast = x :: L2' := List.dropLast_concat ..
            rw [hdl] at hy
            have h1 : y ≠ hdr := fun h => hhL2 (h ▸ hy)
            have h2 : y ≠ (m hdr).prev := by
              rw [hprev_a]
              exact fun h => haL2 (h ▸ hy)
            rw [remove_next_eq]
            simp [h1, h2]
          · intro y hy
            have hy' : y ∈ L2' ++ [t] := hy
            have h1 : y ≠ x := by
              rcases List.mem_append.mp hy' with h | h
              · exact fun he => (List.nodup_cons.mp hndL2).1 (he ▸ h)
              · simp only [List.mem_singleton] at h
                intro he
                refine htL2 ?_
                rw [← h, he]
                simp
            rw [remove_prev_eq, hhnext]
            simp [h1]
    | cons b f' =>
      have hc' : chainOk m (a :: b :: (f' ++ hdr :: L2 ++ [t])) = true := by simpa using hc
      have h1 := (chainOk_cons_cons m a b _).mp hc'
      obtain ⟨hanext, hbprev, hrest⟩ := h1
      have hp : (m hdr).prev = (a :: b :: f').getLast (by simp) := by
        refine chain_last_prev m (a :: b :: f') hdr (L2 ++ [t]) (by simp) ?_
        simpa using hc
      have hpmem : (m hdr).prev ∈ b :: f' := by
        rw [hp, List.getLast_cons (List.cons_ne_nil b f')]
        exact List.getLast_mem _
      have hanp : a ≠ (m hdr).prev := fun h =>
        (List.nodup_cons.mp hndf).1 (h ▸ hpmem)
      have hbn : b ≠ (m hdr).next := by
        cases L2 with
        | nil =>
          have hn : (m hdr).next = t := by
            refine chain_pre_next m (a :: b :: f') hdr t [] ?_
            simpa using hc
          rw [hn]
          intro h
          refine htf ?_
          rw [← h]
          simp
        | cons x L2' =>
          have hn : (m hdr).next = x := by
            refine chain_pre_next m (a :: b :: f') hdr x (L2' ++ [t]) ?_
            simpa using hc
          rw [hn]
          intro h
          refine hdisj b (by simp) ?_
          rw [h]
          simp
      show chainOk _ ((a :: b :: f') ++ L2 ++ [t]) = true
      have hsh : (a :: b :: f') ++ L2 ++ [t] = a :: b :: (f' ++ L2 ++ [t]) := by simp
      rw [hsh, chainOk_cons_cons]
      refine ⟨?_, ?_, ?_⟩
      · rw [remove_next_eq]
        simp [hah, hanp, hanext]
      · rw [remove_prev_eq]
        simp [hbn, hbprev]
      · have hrec := ih L2 t (by simpa using hrest) (by simp)
          (fun h => hhf (List.mem_cons_of_mem a h)) hhL2 hht
          (List.nodup_cons.mp hndf).2 hndL2
          (fun x hx => hdisj x (List.mem_cons_of_mem a hx))
          (fun h => htf (List.mem_cons_of_mem b h))
          htL2
        simpa using hrec

theorem wf_remove (m : Mem) (s hdr : Nat) (L : List Nat)
    (hwf : wf m s L) (hin : hdr ∈ L) :
    wf (ThreadedObjectSpace.remove m hdr) s (L.erase hdr) ∧
    (ThreadedObjectSpace.remove m hdr hdr).next = 0 := by
  obtain ⟨hc, hnd, hz⟩ := hwf
  obtain ⟨L1, L2, rfl⟩ := List.append_of_mem hin
  have hsL : s ∉ L1 ++ hdr :: L2 := (List.nodup_cons.mp hnd).1
  have hndL : (L1 ++ hdr :: L2).Nodup := (List.nodup_cons.mp hnd).2
  rw [List.nodup_append] at hndL
  obtain ⟨hnd1, hnd2, hdisj12⟩ := hndL
  have hh1 : hdr ∉ L1 := fun h => hdisj12 h (List.mem_cons_self hdr L2)
  have hh2 : hdr ∉ L2 := (List.nodup_cons.mp hnd2).1
  have hndL2 : L2.Nodup := (List.nodup_cons.mp hnd2).2
  have hsL1 : s ∉ L1 := fun h => hsL (List.mem_append_left _ h)
  have hsc : s ∉ hdr :: L2 := fun h => hsL (List.mem_append_right _ h)
  have hhs : hdr ≠ s := by
    intro h
    apply hsc
    rw [← h]
    exact List.mem_cons_self hdr L2
  have hsL2 : s ∉ L2 := fun h => hsc (List.mem_cons_of_mem hdr h)
  have herase : (L1 ++ hdr :: L2).erase hdr = L1 ++ L2 := by
    rw [List.erase_append_right _ hh1, List.erase_cons_head]
  rw [herase]
  have hsplice := chainOk_remove_splice m hdr (s :: L1) L2 s
    (by simpa using hc) (by simp)
    (by
      intro h
      rcases List.mem_cons.mp h with h | h
      · exact hhs h
      · exact hh1 h)
    hh2 hhs
    (by rw [List.nodup_cons]; exact ⟨hsL1, hnd1⟩)
    hndL2
    (by
      intro x hx
      rcases List.mem_cons.mp hx with h | h
      · intro h2
        exact hsL2 (h ▸ h2)
      · exact fun h2 => hdisj12 h (List.mem_cons_of_mem hdr h2))
    (by simpa using hsL1)
    hsL2
  refine ⟨⟨?_, ?_, ?_⟩, ?_⟩
  · simpa using hsplice
  · rw [List.nodup_cons, List.nodup_append]
    refine ⟨?_, hnd1, hndL2, ?_⟩
    · intro h
      rcases List.mem_append.mp h with h | h
      · exact hsL1 h
      · exact hsL2 h
    · intro x hx1 hx2
      exact hdisj12 hx1 (List.mem_cons_of_mem hdr hx2)
  · intro h
    rcases List.mem_cons.mp h with h | h
    · exact hz (h ▸ List.mem_cons_self s _)
    · rcases List.mem_append.mp h with h | h
      · exact hz (List.mem_cons_of_mem s (List.mem_append_left _ h))
      · exact hz (List.mem_cons_of_mem s
          (List.mem_append_right _ (List.mem_cons_of_mem hdr h)))
  · rw [remove_next_eq]
    simp

theorem wf_nonnull (m : Mem) (s : Nat) (L : List Nat) (hwf : wf m s L) :
    ∀ a ∈ s :: L, (m a).next ≠ 0 ∧ (m a).prev ≠ 0 := by
  obtain ⟨hc, _, hz⟩ := hwf
  intro a ha
  have hring : ∀ x ∈ (s :: L) ++ [s], x ≠ 0 := by
    intro x hx
    rcases List.mem_append.mp hx with h | h
    · exact fun h0 => hz (h0 ▸ h)
    · simp only [List.mem_singleton] at h
      intro h0
      exact hz (by rw [← h0, h]; exact List.mem_cons_self s L)
  constructor
  · refine hring _ ?_
    refine chain_next_mem m ((s :: L) ++ [s]) (by simpa using hc) a ?_
    rw [List.dropLast_concat]
    exact ha
  · refine hring _ ?_
    refine chain_prev_mem m ((s :: L) ++ [s]) (by simpa using hc) a ?_
    show a ∈ L ++ [s]
    rcases List.mem_cons.mp ha with h | h
    · rw [h]
      exact List.mem_append_right _ (by simp)
    · exact List.mem_append_left _ h

theorem visit_at_sentinel (m : Mem) (s : Nat) : ∀ k, visit_list_count m s k s = 0 := by
  intro k
  cases k with
  | zero => rfl
  | succ k => simp [visit_list_count]

theorem visit_chain (m : Mem) (s : Nat) :
    ∀ (L2 : List Nat) (cur : Nat) (k : Nat),
    chainOk m (cur :: L2 ++ [s]) = true → cur ≠ s → s ∉ L2 →
    visit_list_count m s (L2.length + k + 1) cur = L2.length + 1 := by
  intro L2
  induction L2 with
  | nil =>
    intro cur k hc hcs _
    have h1 : (m cur).next = s :=
      ((chainOk_cons_cons m cur s []).mp (by simpa using hc)).1
    simp [visit_list_count, hcs, h1, visit_at_sentinel]
  | cons x L2' ih =>
    intro cur k hc hcs hs2
    have h1 := (chainOk_cons_cons m cur x (L2' ++ [s])).mp (by simpa using hc)
    have hxs : x ≠ s := by
      intro h
      exact hs2 (by rw [← h]; simp)
    have hs2' : s ∉ L2' := fun h => hs2 (List.mem_cons_of_mem x h)
    have hrec := ih x k h1.2.2 hxs hs2'
    have hlen : (x :: L2').length + k + 1 = (L2'.length + k + 1) + 1 := by
      simp only [List.length_cons]
      omega
    rw [hlen]
    rw [show visit_list_count m s ((L2'.length + k + 1) + 1) cur
        = if cur = s then 0
          else 1 + visit_list_count m s (L2'.length + k + 1) (m cur).next from rfl]
    rw [if_neg hcs, h1.1, hrec]
    simp only [List.length_cons]
    omega

theorem count_tracked_eq (m : Mem) (s : Nat) (L : List Nat) (hwf : wf m s L) :
    ThreadedObjectSpace.count_tracked m s (L.length + 1) = L.length := by
  obtain ⟨hc, hnd, _⟩ := hwf
  cases L with
  | nil =>
    have h1 : (m s).next = s := ((chainOk_cons_cons m s s []).mp (by simpa using hc)).1
    simp [ThreadedObjectSpace.count_tracked, h1, visit_at_sentinel]
  | cons x L' =>
    have h1 := (chainOk_cons_cons m s x (L' ++ [s])).mp (by simpa using hc)
    have hsL : s ∉ x :: L' := (List.nodup_cons.mp hnd).1
    have hxs : x ≠ s := by
      intro h
      exact hsL (by rw [← h]; simp)
    have hs2 : s ∉ L' := fun h => hsL (List.mem_cons_of_mem x h)
    have hv := visit_chain m s L' x 1 h1.2.2 hxs hs2
    unfold ThreadedObjectSpace.count_tracked
    rw [h1.1]
    have hlen : (x :: L').length + 1 = L'.length + 1 + 1 := by simp
    rw [hlen, hv]
    simp

/-- C5: every registry operation preserves the header-linkage invariant.
A default-constructed registry satisfies the invariant with an empty tracked
list; `empty_header` produces an unlinked header with `next` null; `insert`
of a fresh unlinked header extends the invariant; `remove` of a linked header
preserves the invariant for the remaining headers and leaves the removed
header with `next` null; and under the invariant every linked header (the
sentinel included) has non-null `next` and `prev`. -/
theorem header_linkage_invariant :
    (∀ (m : Mem) (s lockId : Nat), s ≠ 0 →
      wf (ThreadedObjectSpace.default m s lockId) s []) ∧
    (∀ lockId : Nat, (ThreadedObjectSpace.empty_header lockId).next = 0) ∧
    (∀ (m : Mem) (s hdr vptr : Nat) (L : List Nat),
      wf m s L → hdr ≠ 0 → hdr ∉ s :: L → (m hdr).next = 0 →
      wf (ThreadedObjectSpace.insert m s hdr vptr) s (hdr :: L)) ∧
    (∀ (m : Mem) (s hdr : Nat) (L : List Nat), wf m s L → hdr ∈ L →
      wf (ThreadedObjectSpace.remove m hdr) s (L.erase hdr) ∧
      (ThreadedObjectSpace.remove m hdr hdr).next = 0) ∧
    (∀ (m : Mem) (s : Nat) (L : List Nat), wf m s L →
      ∀ a ∈ s :: L, (m a).next ≠ 0 ∧ (m a).prev ≠ 0) :=
  ⟨fun m s lockId hs => wf_default m s lockId hs,
   fun _ => rfl,
   fun m s hdr vptr L hwf h0 hmem _ => wf_insert m s hdr vptr L hwf h0 hmem,
   fun m s hdr L hwf hin => wf_remove m s hdr L hwf hin,
   fun m s L hwf => wf_nonnull m s L hwf⟩

/-- C5 witness: on the concrete ring `memW` (sentinel 1, tracked header 2),
inserting fresh header 3 preserves the invariant and removing header 2
afterwards is invariant-preserving too. -/
theorem header_linkage_invariant_witness :
    (wf memW 1 [2] ∧ (3 : Nat) ≠ 0 ∧ (3 : Nat) ∉ [1, 2] ∧ (memW 3).next = 0) ∧
    wf (ThreadedObjectSpace.insert memW 1 3 7) 1 [3, 2] :=
  ⟨⟨⟨by decide, by decide, by decide⟩, by decide, by decide, by decide⟩,
    header_linkage_invariant.2.2.1 memW 1 3 7 [2]
      ⟨by decide, by decide, by decide⟩ (by decide) (by decide) (by decide)⟩

/-- C6: a default-constructed registry's sentinel is self-looped (`next` and
`prev` both point at the sentinel itself), `count_tracked()` returns 0 on such
a fresh registry, and on any registry satisfying the list invariant
`count_tracked()` returns exactly the number of non-sentinel headers in the
list (given fuel to walk the list once). -/
theorem sentinel_selfloop_and_count :
    (∀ (m : Mem) (s lockId : Nat),
      (ThreadedObjectSpace.default m s lockId s).next = s ∧
      (ThreadedObjectSpace.default m s lockId s).prev = s) ∧
    (∀ (m : Mem) (s lockId : Nat),
      ThreadedObjectSpace.count_tracked (ThreadedObjectSpace.default m s lockId) s 1 = 0) ∧
    (∀ (m : Mem) (s : Nat) (L : List Nat), wf m s L →
      ThreadedObjectSpace.count_tracked m s (L.length + 1) = L.length) := by
  refine ⟨?_, ?_, fun m s L hwf => count_tracked_eq m s L hwf⟩
  · intro m s lockId
    constructor
    · unfold ThreadedObjectSpace.default
      rw [Mem.setNext_self_next]
    · unfold ThreadedObjectSpace.default
      rw [Mem.setNext_prev, Mem.setPrev_self_prev]
  · intro m s lockId
    unfold ThreadedObjectSpace.count_tracked
    rw [show (ThreadedObjectSpace.default m s lockId s).next = s by
      unfold ThreadedObjectSpace.default; rw [Mem.setNext_self_next]]
    exact visit_at_sentinel _ s 1

/-- C6 witness: on the concrete ring `memW` with one tracked header,
`count_tracked` returns exactly 1. -/
theorem sentinel_selfloop_and_count_witness :
    wf memW 1 [2] ∧ ThreadedObjectSpace.count_tracked memW 1 ([2].length + 1) = [2].length :=
  ⟨⟨by decide, by decide, by decide⟩,
    sentinel_selfloop_and_count.2.2 memW 1 [2] ⟨by decide, by decide, by decide⟩⟩

theorem subset_liveStep (reg : List GcObj) (s : Finset Nat) : s ⊆ liveStep reg s :=
  Finset.subset_union_left

theorem succsF_subset_ids (reg : List GcObj) (i : Nat) : succsF reg i ⊆ idsF reg := by
  unfold succsF
  cases hf : reg.find? (fun o => o.id == i) with
  | none => simp
  | some o =>
    intro j hj
    simp only [List.mem_toFinset, List.mem_filter] at hj
    obtain ⟨_, hsome⟩ := hj
    obtain ⟨p, hp⟩ := Option.isSome_iff_exists.mp hsome
    have hpm : p ∈ reg := List.mem_of_find?_eq_some hp
    have hpid : p.id = j := by
      have := List.find?_some hp
      simpa using this
    unfold idsF
    rw [List.mem_toFinset]
    exact hpid ▸ List.mem_map_of_mem GcObj.id hpm

theorem rootsF_subset_ids (reg : List GcObj) : rootsF reg ⊆ idsF reg := by
  intro i hi
  unfold rootsF at hi
  rw [List.mem_toFinset] at hi
  obtain ⟨o, ho, rfl⟩ := List.mem_map.mp hi
  have hom : o ∈ reg := List.mem_of_mem_filter ho
  unfold idsF
  rw [List.mem_toFinset]
  exact List.mem_map_of_mem GcObj.id hom

theorem liveStep_subset_ids (reg : List GcObj) (s : Finset Nat)
    (hs : s ⊆ idsF reg) : liveStep reg s ⊆ idsF reg := by
  unfold liveStep
  refine Finset.union_subset hs (Finset.biUnion_subset.mpr ?_)
  intro i _
  exact succsF_subset_ids reg i

theorem liveIter_closed (reg : List GcObj) :
    ∀ (fuel : Nat) (s : Finset Nat), s ⊆ idsF reg →
    (idsF reg \ s).card < fuel →
    EdgeClosed reg (liveIter reg fuel s) := by
  intro fuel
  induction fuel with
  | zero => intro s _ hcard; omega
  | succ fuel ih =>
    intro s hs hcard
    rw [show liveIter reg (fuel + 1) s
        = if liveStep reg s ⊆ s then s else liveIter reg fuel (liveStep reg s) from rfl]
    by_cases hsub : liveStep reg s ⊆ s
    · rw [if_pos hsub]
      intro i hi j hj
      refine hsub ?_
      unfold liveStep
      exact Finset.mem_union_right _ (Finset.mem_biUnion.mpr ⟨i, hi, hj⟩)
    · rw [if_neg hsub]
      refine ih (liveStep reg s) (liveStep_subset_ids reg s hs) ?_
      obtain ⟨x, hx1, hx2⟩ := Finset.not_subset.mp hsub
      have hsubd : idsF reg \ liveStep reg s ⊆ idsF reg \ s :=
        Finset.sdiff_subset_sdiff (le_refl _) (subset_liveStep reg s)
      have hxin : x ∈ idsF reg \ s :=
        Finset.mem_sdiff.mpr ⟨liveStep_subset_ids reg s hs hx1, hx2⟩
      have hxout : x ∉ idsF reg \ liveStep reg s :=
        fun hc => (Finset.mem_sdiff.mp hc).2 hx1
      have hlt : (idsF reg \ liveStep reg s).card < (idsF reg \ s).card :=
        Finset.card_lt_card
          (Finset.ssubset_def.mpr ⟨hsubd, fun hc => hxout (hc hxin)⟩)
      omega

theorem subset_liveIter (reg : List GcObj) :
    ∀ (fuel : Nat) (s : Finset Nat), s ⊆ liveIter reg fuel s := by
  intro fuel
  induction fuel with
  | zero => intro s; exact Finset.Subset.refl s
  | succ fuel ih =>
    intro s
    rw [show liveIter reg (fuel + 1) s
        = if liveStep reg s ⊆ s then s else liveIter reg fuel (liveStep reg s) from rfl]
    by_cases hsub : liveStep reg s ⊆ s
    · rw [if_pos hsub]
    · rw [if_neg hsub]
      exact (subset_liveStep reg s).trans (ih (liveStep reg s))

theorem reaches_mem_closed (reg : List GcObj) (S : Finset Nat)
    (hcl : EdgeClosed reg S) (hroots : rootsF reg ⊆ S) :
    ∀ i, ReachesFromRoot reg i → i ∈ S := by
  intro i h
  induction h with
  | root i hi => exact hroots hi
  | step i j _ hj ih => exact hcl i ih hj

theorem liveSet_closed (reg : List GcObj) : EdgeClosed reg (liveSet reg) := by
  unfold liveSet
  refine liveIter_closed reg ((idsF reg).card + 1) (rootsF reg)
    (rootsF_subset_ids reg) ?_
  have hle := Finset.card_le_card
    (Finset.sdiff_subset : idsF reg \ rootsF reg ⊆ idsF reg)
  omega

theorem mem_liveSet_of_reaches (reg : List GcObj) (i : Nat)
    (h : ReachesFromRoot reg i) : i ∈ liveSet reg :=
  reaches_mem_closed reg (liveSet reg) (liveSet_closed reg)
    (by unfold liveSet; exact subset_liveIter reg _ _) i h

/-- C2: the trial-deletion pass on an empty registry reclaims nothing and
returns 0; on a registry in which every tracked object is reachable from an
externally rooted object it returns 0, leaves the registry unchanged, and a
repeated pass again returns 0 — collection on a garbage-free registry is
idempotent and never reclaims a live object. -/
theorem collect_cycles_garbage_free :
    collect_list [] = (0, []) ∧
    (∀ reg : List GcObj, (∀ o ∈ reg, ReachesFromRoot reg o.id) →
      collect_list reg = (0, reg) ∧
      collect_list (collect_list reg).2 = (0, reg)) := by
  constructor
  · decide
  · intro reg hroot
    have hlive : ∀ o ∈ reg, o.id ∈ liveSet reg :=
      fun o ho => mem_liveSet_of_reaches reg o.id (hroot o ho)
    have hfilter_not : reg.filter (fun o => decide (o.id ∉ liveSet reg)) = [] := by
      rw [List.filter_eq_nil_iff]
      intro o ho
      simp [hlive o ho]
    have hfilter_yes : reg.filter (fun o => decide (o.id ∈ liveSet reg)) = reg := by
      rw [List.filter_eq_self]
      intro o ho
      simp [hlive o ho]
    have h1 : collect_list reg = (0, reg) := by
      unfold collect_list
      rw [hfilter_not, hfilter_yes]
      rfl
    refine ⟨h1, ?_⟩
    rw [h1]
    exact h1

/-- C2 witness: on the two-object cycle `regW` whose member 10 carries an
external reference, the pass reclaims nothing and returns 0. -/
theorem collect_cycles_garbage_free_witness :
    (∀ o ∈ regW, ReachesFromRoot regW o.id) ∧ collect_list regW = (0, regW) := by
  have hreach : ∀ o ∈ regW, ReachesFromRoot regW o.id := by
    intro o ho
    rcases (by simpa [regW] using ho : o = (⟨10, 2, [11]⟩ : GcObj) ∨ o = ⟨11, 1, [10]⟩)
      with rfl | rfl
    · exact ReachesFromRoot.root 10 (by decide)
    · exact ReachesFromRoot.step 10 11 (ReachesFromRoot.root 10 (by decide)) (by decide)
  exact ⟨hreach, (collect_cycles_garbage_free.2 regW hreach).1⟩
